import Mathlib

/-!
SoundForge: genome-to-melody codec and generation loop, shallowly embedded.

This development embeds the core of `SoundForge.py` — the bit-string
genome representation, the `int_from_bits` utility, the
`genome_to_melody` decoder and the next-generation construction of the
`main` loop — as executable Lean definitions, and proves or refutes the
specification's claims about them.

Modelling conventions:
* Python ints holding bit values and decoded note values become `Nat`.
* The beat durations (`4 / float(num_notes)` and the `+=` sums thereof)
  are IEEE-754 doubles in the source.  They are modelled twice: once
  idealized in exact rational arithmetic (`ℚ`, in `stepNote` and
  `melodySkeleton`), and once bit-exactly as doubles (`stepNoteFP` and
  `melodySkeletonFP`, where a nonnegative finite double is represented
  by its value scaled by `2 ^ 1074` as a natural number and `roundFP`
  performs round-to-nearest, ties to even).  The exact model and the
  double model disagree on duration totals (see the C10 theorems).
* Python exceptions become `Except PyErr`; the only exception the
  decoder itself can raise is `ZeroDivisionError` (from
  `4 / float(num_notes)` when `num_notes = 0`, and from
  `... % len(scl)` when the scale table is empty).
* The pyo `EventScale(root=key, scale=scale, first=root)` object is an
  external library value; it is modelled by its resulting ordered pitch
  table `scl : List Int`, passed to the decoder directly in place of the
  `(key, scale, root)` triple.
-/

namespace SoundForge

/-- Constant `BITS_PER_NOTE = 4` from SoundForge.py line 27. -/
def BITS_PER_NOTE : Nat := 4

/-- Function `int_from_bits` (SoundForge.py lines 35-36):
`int(sum([bit * pow(2, index) for index, bit in enumerate(bits)]))`. -/
def int_from_bits (bits : List Nat) : Nat :=
  ((bits.enum).map (fun p => p.2 * 2 ^ p.1)).sum

/-- Python exceptions that the embedded code can raise. -/
inductive PyErr where
  | zeroDivisionError
deriving DecidableEq

/-- The accumulator of the decoding loop: the three parallel lists
`melody["notes"]`, `melody["velocity"]`, `melody["beat"]` built by the
`for note in notes` loop of `genome_to_melody`. -/
structure MelodyAcc where
  notes : List Nat
  velocity : List Nat
  beat : List ℚ
deriving DecidableEq

/-- The decoder's result: `melody["notes"]` after being replaced by the
`steps` list of absolute-pitch layers, together with the shared
`velocity` and `beat` lists. -/
structure Melody where
  notes : List (List Int)
  velocity : List Nat
  beat : List ℚ
deriving DecidableEq

/-- Model of `melody["beat"][-1] += note_length`: add `x` to the last element of
the list.  The decoder only reaches this update when `melody["notes"]`
is nonempty, and the three lists always have equal length, so the empty
case below is unreachable in context. -/
def bumpLast (l : List ℚ) (x : ℚ) : List ℚ :=
  match l with
  | [] => []
  | [y] => [y + x]
  | y :: z :: ys => y :: bumpLast (z :: ys) x

/-- The decoded value `integer` of one NoteCode window (SoundForge.py
lines 56-59): `int_from_bits`, with the rest bit masked off
(`integer % pow(2, BITS_PER_NOTE - 1)`) when pauses are disabled. -/
def noteValue (pauses : Bool) (note : List Nat) : Nat :=
  if !pauses then int_from_bits note % 2 ^ (BITS_PER_NOTE - 1) else int_from_bits note

/-- The body of the `for note in notes` loop (SoundForge.py lines
55-71): decode the window, mask the rest bit when pauses are disabled,
then either emit a rest, extend the previous entry (tie), or append a
new sounding entry.  The beat arithmetic is idealized here as exact
rational arithmetic; the source computes in IEEE-754 doubles, modelled
bit-exactly by `stepNoteFP` below. -/
def stepNote (pauses : Bool) (note_length : ℚ) (acc : MelodyAcc)
    (note : List Nat) : MelodyAcc :=
  if 2 ^ (BITS_PER_NOTE - 1) ≤ noteValue pauses note then
    ⟨acc.notes ++ [0], acc.velocity ++ [0], acc.beat ++ [note_length]⟩
  else if acc.notes.getLast? = some (noteValue pauses note) then
    ⟨acc.notes, acc.velocity, bumpLast acc.beat note_length⟩
  else
    ⟨acc.notes ++ [noteValue pauses note], acc.velocity ++ [127], acc.beat ++ [note_length]⟩

/-- The NoteCode windows (SoundForge.py line 42):
`[genome[i*BITS_PER_NOTE : i*BITS_PER_NOTE + BITS_PER_NOTE] for i in
range(num_bars * num_notes)]`.  Python slicing past the end of the list
silently yields a short or empty window. -/
def genomeWindows (genome : List Nat) (num_bars num_notes : Nat) :
    List (List Nat) :=
  (List.range (num_bars * num_notes)).map
    (fun i => (genome.drop (i * BITS_PER_NOTE)).take BITS_PER_NOTE)

/-- The three parallel lists produced by the decoding loop, before the
`steps` pitch-layer transformation (SoundForge.py lines 44, 48-71).
`note_length = 4 / float(num_notes)` and the beat sums are idealized as
exact rationals; `melodySkeletonFP` below models the source's double
arithmetic bit-exactly. -/
def melodySkeleton (genome : List Nat) (num_bars num_notes : Nat)
    (pauses : Bool) : MelodyAcc :=
  (genomeWindows genome num_bars num_notes).foldl
    (stepNote pauses (4 / (num_notes : ℚ))) ⟨[], [], []⟩

/-- A Python list comprehension over `Except`-valued expressions:
elements are produced left to right and the first raised exception
propagates. -/
def exceptMapList {α β : Type} (f : α → Except PyErr β) :
    List α → Except PyErr (List β)
  | [] => .ok []
  | a :: as =>
    match f a with
    | .error e => .error e
    | .ok b =>
      match exceptMapList f as with
      | .error e => .error e
      | .ok bs => .ok (b :: bs)

/-- Model of `scl[(...) % len(scl)]` indexing (SoundForge.py line 75): Python raises
`ZeroDivisionError` on `% len(scl)` when the scale table is empty. -/
def sclIndex (scl : List Int) (idx : Nat) : Except PyErr Int :=
  if h : scl.length = 0 then .error .zeroDivisionError
  else .ok (scl.get ⟨idx % scl.length, Nat.mod_lt _ (Nat.pos_of_ne_zero h)⟩)

/-- Function `genome_to_melody` (SoundForge.py lines 40-78).  The pyo scale table
`EventScale(root=key, scale=scale, first=root)` is passed as `scl`.
`note_length = 4 / float(num_notes)` raises `ZeroDivisionError` when
`num_notes = 0`.  There is no check that the genome length equals
`num_bars * num_notes * BITS_PER_NOTE`. -/
def genome_to_melody (genome : List Nat) (num_bars num_notes num_steps : Nat)
    (pauses : Bool) (scl : List Int) : Except PyErr Melody :=
  if num_notes = 0 then .error .zeroDivisionError
  else
    match exceptMapList
        (fun step => exceptMapList (fun note => sclIndex scl (note + step * 2))
          (melodySkeleton genome num_bars num_notes pauses).notes)
        (List.range num_steps) with
    | .error e => .error e
    | .ok steps =>
        .ok ⟨steps, (melodySkeleton genome num_bars num_notes pauses).velocity,
          (melodySkeleton genome num_bars num_notes pauses).beat⟩

/-- The shape check of `save_genome_to_midi` (SoundForge.py lines
142-143): `len(melody["notes"][0]) != len(melody["beat"]) or
len(melody["notes"][0]) != len(melody["velocity"])`.  `headI` models
`[0]`-indexing, which the caller only reaches with `num_steps ≥ 1`. -/
def melodyShapeMismatch (m : Melody) : Bool :=
  decide (m.notes.headI.length ≠ m.beat.length) ||
    decide (m.notes.headI.length ≠ m.velocity.length)

/-- One pass of the next-generation construction in `main`
(SoundForge.py lines 224-242): keep `population[0:2]`, then for
`j in range(int(len(population) / 2) - 1)` append two offspring.
Modelled from the spec: `selection_pair`, `single_point_crossover` and
`mutation` live in `Backbone.py`, which is not among the repository
sources; per the spec each loop iteration "selects a parent pair,
crosses them over, mutates both offspring, and appends both", so the
two offspring of iteration `j` are abstracted as `offspring j`. -/
def next_generation_pass (population : List (List Nat))
    (offspring : Nat → List Nat × List Nat) : List (List Nat) :=
  (List.range (population.length / 2 - 1)).foldl
    (fun acc j => acc ++ [(offspring j).1, (offspring j).2])
    (population.take 2)

/-- The `k`-bit little-endian binary expansion of `n`, as named by the
spec's round-trip property ("the binary expansion of any integer `n` in
`[0, 2^k)` using `k` bits"). -/
def toBitsLE (n k : Nat) : List Nat :=
  (List.range k).map (fun i => n / 2 ^ i % 2)

/-- Recursive little-endian value of a bit list, used as a stepping
stone for reasoning about `int_from_bits`. -/
def bitsVal : List Nat → Nat
  | [] => 0
  | b :: bs => b + 2 * bitsVal bs

/-- Bit length with explicit fuel (any fuel at least the bit length
works), so that it reduces by kernel computation. -/
def bitLenAux : Nat → Nat → Nat
  | 0, _ => 0
  | fuel + 1, n => if n = 0 then 0 else bitLenAux fuel (n / 2) + 1

/-- Bit length of a natural number: 0 for 0, `⌊log₂ n⌋ + 1` for
`n ≥ 1` (the fuel `n` always suffices). -/
def bitLen (n : Nat) : Nat := bitLenAux n n

/-- Round the nonnegative rational `num / den` (`den ≠ 0`) to the
nearest IEEE-754 binary64 value, ties to even, returned scaled by
`2 ^ 1074` — the scale at which every finite nonnegative double,
subnormals included, is an integer.  `i` is the floor of the scaled
value, so `bitLen i - 53` is the exponent of one scaled ulp in the
input's binade (0 in the subnormal range), and the value is rounded to
the nearest multiple of that ulp with ties to the even multiple.
Overflow to infinity is not modelled; the decoder's durations stay far
below the threshold. -/
def roundFP (num den : Nat) : Nat :=
  if num = 0 then 0
  else
    let s := num * 2 ^ 1074
    let i := s / den
    let e := bitLen i - 53
    let d := den * 2 ^ e
    let q := s / d
    let r := s % d
    let m := if 2 * r < d then q
      else if d < 2 * r then q + 1
      else if q % 2 = 0 then q else q + 1
    m * 2 ^ e

/-- IEEE-754 double addition of two scaled doubles: their exact sum
(which the fixed-point scale represents exactly) rounded back to a
double. -/
def fpAdd (x y : Nat) : Nat := roundFP (x + y) (2 ^ 1074)

/-- `4 / float(n)` in IEEE-754 double arithmetic, as a scaled double
(`float(n)` is exact for every `n < 2 ^ 53`, so the single correctly
rounded division models the source's expression). -/
def fpDiv4 (n : Nat) : Nat := roundFP 4 n

/-- The decoding loop's accumulator with the beat list as scaled
doubles: the bit-exact counterpart of `MelodyAcc`. -/
structure MelodyAccFP where
  notes : List Nat
  velocity : List Nat
  beat : List Nat
deriving DecidableEq

/-- `melody["beat"][-1] += note_length` in IEEE-754 double
arithmetic. -/
def bumpLastFP (l : List Nat) (x : Nat) : List Nat :=
  match l with
  | [] => []
  | [y] => [fpAdd y x]
  | y :: z :: ys => y :: bumpLastFP (z :: ys) x

/-- The loop body of `genome_to_melody` (SoundForge.py lines 55-71)
with the beat arithmetic performed in IEEE-754 doubles exactly as the
source does; the notes and velocities are those of `stepNote`. -/
def stepNoteFP (pauses : Bool) (note_length : Nat) (acc : MelodyAccFP)
    (note : List Nat) : MelodyAccFP :=
  if 2 ^ (BITS_PER_NOTE - 1) ≤ noteValue pauses note then
    ⟨acc.notes ++ [0], acc.velocity ++ [0], acc.beat ++ [note_length]⟩
  else if acc.notes.getLast? = some (noteValue pauses note) then
    ⟨acc.notes, acc.velocity, bumpLastFP acc.beat note_length⟩
  else
    ⟨acc.notes ++ [noteValue pauses note], acc.velocity ++ [127], acc.beat ++ [note_length]⟩

/-- The three parallel lists of the decoding loop with
`note_length = 4 / float(num_notes)` and the beat accumulation
computed in IEEE-754 double arithmetic (SoundForge.py lines 44,
48-71): the bit-exact counterpart of `melodySkeleton`. -/
def melodySkeletonFP (genome : List Nat) (num_bars num_notes : Nat)
    (pauses : Bool) : MelodyAccFP :=
  (genomeWindows genome num_bars num_notes).foldl
    (stepNoteFP pauses (fpDiv4 num_notes)) ⟨[], [], []⟩

/-! Basic lemmas about the bit utility -/

lemma enumFrom_pow_sum (l : List Nat) : ∀ n : Nat,
    ((List.enumFrom n l).map (fun p => p.2 * 2 ^ p.1)).sum = 2 ^ n * bitsVal l := by
  induction l with
  | nil => intro n; simp [bitsVal]
  | cons b bs ih =>
    intro n
    simp only [List.enumFrom, List.map_cons, List.sum_cons, bitsVal, ih (n + 1), pow_succ]
    ring

lemma int_from_bits_eq_bitsVal (l : List Nat) : int_from_bits l = bitsVal l := by
  have h := enumFrom_pow_sum l 0
  simpa [int_from_bits, List.enum] using h

lemma bitsVal_eq_sum (l : List Nat) :
    bitsVal l = ∑ i in Finset.range l.length, l.getD i 0 * 2 ^ i := by
  induction l with
  | nil => simp [bitsVal]
  | cons b bs ih =>
    rw [bitsVal, ih, List.length_cons, Finset.sum_range_succ']
    simp only [List.getD_cons_succ, List.getD_cons_zero, pow_zero, mul_one, pow_succ]
    rw [Finset.mul_sum, add_comm]
    congr 1
    exact Finset.sum_congr rfl (fun x _ => by ring)

lemma toBitsLE_succ (n k : Nat) : toBitsLE n (k + 1) = n % 2 :: toBitsLE (n / 2) k := by
  unfold toBitsLE
  rw [List.range_succ_eq_map, List.map_cons, List.map_map]
  simp [Function.comp, pow_succ', Nat.div_div_eq_div_mul]

lemma bitsVal_toBitsLE : ∀ (k n : Nat), n < 2 ^ k → bitsVal (toBitsLE n k) = n := by
  intro k
  induction k with
  | zero => intro n h; simp [toBitsLE, bitsVal]; omega
  | succ k ih =>
    intro n h
    have hdiv : n / 2 < 2 ^ k := by
      rw [pow_succ] at h
      omega
    rw [toBitsLE_succ, bitsVal, ih (n / 2) hdiv]
    omega

/-! Lemmas about exception-propagating list comprehensions -/

lemma exceptMapList_ok_length {α β : Type} {f : α → Except PyErr β} :
    ∀ {l : List α} {bs : List β}, exceptMapList f l = .ok bs → bs.length = l.length := by
  intro l
  induction l with
  | nil =>
    intro bs h
    simp only [exceptMapList, Except.ok.injEq] at h
    subst h; rfl
  | cons a as ih =>
    intro bs h
    rw [exceptMapList] at h
    cases hfa : f a with
    | error e => rw [hfa] at h; exact absurd h (by simp)
    | ok b =>
      rw [hfa] at h
      cases hrec : exceptMapList f as with
      | error e => rw [hrec] at h; exact absurd h (by simp)
      | ok cs =>
        rw [hrec] at h
        simp only [Except.ok.injEq] at h
        subst h
        simp [ih hrec]

lemma exceptMapList_eq_map {α β : Type} {f : α → Except PyErr β} {g : α → β} :
    ∀ {l : List α}, (∀ a ∈ l, f a = .ok (g a)) → exceptMapList f l = .ok (l.map g) := by
  intro l
  induction l with
  | nil => intro _; rfl
  | cons a as ih =>
    intro h
    rw [exceptMapList, h a (by simp), ih (fun x hx => h x (by simp [hx]))]
    rfl

lemma exceptMapList_ok_mem {α β : Type} {f : α → Except PyErr β} :
    ∀ {l : List α} {bs : List β}, exceptMapList f l = .ok bs →
      ∀ b ∈ bs, ∃ a ∈ l, f a = .ok b := by
  intro l
  induction l with
  | nil =>
    intro bs h b hb
    simp only [exceptMapList, Except.ok.injEq] at h
    subst h; simp at hb
  | cons a as ih =>
    intro bs h b hb
    rw [exceptMapList] at h
    cases hfa : f a with
    | error e => rw [hfa] at h; exact absurd h (by simp)
    | ok c =>
      rw [hfa] at h
      cases hrec : exceptMapList f as with
      | error e => rw [hrec] at h; exact absurd h (by simp)
      | ok cs =>
        rw [hrec] at h
        simp only [Except.ok.injEq] at h
        subst h
        rcases List.mem_cons.mp hb with hb | hb
        · exact ⟨a, by simp, by rw [hfa, hb]⟩
        · obtain ⟨x, hx, hfx⟩ := ih hrec b hb
          exact ⟨x, by simp [hx], hfx⟩

/-! Lemmas about the decoding loop -/

lemma bumpLast_length : ∀ (l : List ℚ) (x : ℚ), (bumpLast l x).length = l.length
  | [], _ => rfl
  | [_], _ => rfl
  | _ :: z :: ys, x => by
    rw [bumpLast]
    simp [bumpLast_length (z :: ys) x]

lemma bumpLast_sum : ∀ (l : List ℚ) (x : ℚ), l ≠ [] → (bumpLast l x).sum = l.sum + x
  | [y], x, _ => by simp [bumpLast]
  | y :: z :: ys, x, _ => by
    rw [bumpLast]
    simp only [List.sum_cons, bumpLast_sum (z :: ys) x (by simp)]
    ring

lemma stepNote_invariant (pauses : Bool) (nl : ℚ) (acc : MelodyAcc) (w : List Nat)
    (h1 : acc.notes.length = acc.velocity.length)
    (h2 : acc.velocity.length = acc.beat.length) :
    (stepNote pauses nl acc w).notes.length = (stepNote pauses nl acc w).velocity.length ∧
    (stepNote pauses nl acc w).velocity.length = (stepNote pauses nl acc w).beat.length ∧
    (stepNote pauses nl acc w).beat.sum = acc.beat.sum + nl := by
  unfold stepNote
  split_ifs with hrest htie
  · simp [h1, h2]
  · have hne : acc.notes ≠ [] := by
      intro he
      rw [he] at htie
      simp at htie
    have hbne : acc.beat ≠ [] := by
      intro he
      apply hne
      have hb0 : acc.beat.length = 0 := by rw [he]; rfl
      have hn0 : acc.notes.length = 0 := by omega
      exact List.length_eq_zero.mp hn0
    simp [bumpLast_length, bumpLast_sum acc.beat nl hbne, h1, h2]
  · simp [h1, h2]

lemma foldl_stepNote_invariant (pauses : Bool) (nl : ℚ) :
    ∀ (ws : List (List Nat)) (acc : MelodyAcc),
      acc.notes.length = acc.velocity.length →
      acc.velocity.length = acc.beat.length →
      (ws.foldl (stepNote pauses nl) acc).notes.length
          = (ws.foldl (stepNote pauses nl) acc).velocity.length ∧
      (ws.foldl (stepNote pauses nl) acc).velocity.length
          = (ws.foldl (stepNote pauses nl) acc).beat.length ∧
      (ws.foldl (stepNote pauses nl) acc).beat.sum = acc.beat.sum + ws.length * nl := by
  intro ws
  induction ws with
  | nil => intro acc h1 h2; exact ⟨h1, h2, by simp⟩
  | cons w ws ih =>
    intro acc h1 h2
    obtain ⟨g1, g2, g3⟩ := stepNote_invariant pauses nl acc w h1 h2
    obtain ⟨r1, r2, r3⟩ := ih (stepNote pauses nl acc w) g1 g2
    refine ⟨by simpa using r1, by simpa using r2, ?_⟩
    rw [List.foldl_cons, r3, g3, List.length_cons]
    push_cast
    ring

lemma melodySkeleton_invariant (genome : List Nat) (num_bars num_notes : Nat)
    (pauses : Bool) :
    (melodySkeleton genome num_bars num_notes pauses).notes.length
        = (melodySkeleton genome num_bars num_notes pauses).velocity.length ∧
    (melodySkeleton genome num_bars num_notes pauses).velocity.length
        = (melodySkeleton genome num_bars num_notes pauses).beat.length ∧
    (melodySkeleton genome num_bars num_notes pauses).beat.sum
        = (num_bars * num_notes) * (4 / (num_notes : ℚ)) := by
  have h := foldl_stepNote_invariant pauses (4 / (num_notes : ℚ))
    (genomeWindows genome num_bars num_notes) ⟨[], [], []⟩ rfl rfl
  simpa [melodySkeleton, genomeWindows] using h

lemma noteValue_noPauses_lt (w : List Nat) :
    noteValue false w < 2 ^ (BITS_PER_NOTE - 1) := by
  unfold noteValue
  simp only [Bool.not_false, if_true]
  exact Nat.mod_lt _ (by norm_num [BITS_PER_NOTE])

lemma stepNote_velocity_noPauses (nl : ℚ) (acc : MelodyAcc) (w : List Nat) :
    (stepNote false nl acc w).velocity = acc.velocity ∨
    (stepNote false nl acc w).velocity = acc.velocity ++ [127] := by
  unfold stepNote
  have hlt := noteValue_noPauses_lt w
  split_ifs with hrest htie
  · omega
  · left; rfl
  · right; rfl

lemma foldl_velocity_noPauses (nl : ℚ) :
    ∀ (ws : List (List Nat)) (acc : MelodyAcc) (v : Nat),
      v ∈ (ws.foldl (stepNote false nl) acc).velocity → v ∈ acc.velocity ∨ v = 127 := by
  intro ws
  induction ws with
  | nil => intro acc v hv; exact Or.inl hv
  | cons w ws ih =>
    intro acc v hv
    rw [List.foldl_cons] at hv
    rcases ih (stepNote false nl acc w) v hv with hmem | h127
    · rcases stepNote_velocity_noPauses nl acc w with he | he
      · rw [he] at hmem; exact Or.inl hmem
      · rw [he] at hmem
        rcases List.mem_append.mp hmem with h | h
        · exact Or.inl h
        · simp at h; exact Or.inr h
    · exact Or.inr h127

/-! Destructuring the decoder's result -/

lemma sclIndex_ok {scl : List Int} (h : scl ≠ []) (idx : Nat) :
    sclIndex scl idx = .ok (scl.getD (idx % scl.length) 0) := by
  unfold sclIndex
  rw [dif_neg (by simpa using h)]
  congr 1
  exact (List.getD_eq_getElem scl 0 _).symm

lemma genome_to_melody_ok {genome : List Nat} {num_bars num_notes num_steps : Nat}
    {pauses : Bool} {scl : List Int} {m : Melody}
    (h : genome_to_melody genome num_bars num_notes num_steps pauses scl = .ok m) :
    num_notes ≠ 0 ∧
    ∃ steps,
      exceptMapList
        (fun step => exceptMapList (fun note => sclIndex scl (note + step * 2))
          (melodySkeleton genome num_bars num_notes pauses).notes)
        (List.range num_steps) = .ok steps ∧
      m = ⟨steps, (melodySkeleton genome num_bars num_notes pauses).velocity,
        (melodySkeleton genome num_bars num_notes pauses).beat⟩ := by
  unfold genome_to_melody at h
  by_cases hnn : num_notes = 0
  · rw [if_pos hnn] at h
    exact absurd h (by simp)
  · rw [if_neg hnn] at h
    refine ⟨hnn, ?_⟩
    cases hml : exceptMapList
        (fun step => exceptMapList (fun note => sclIndex scl (note + step * 2))
          (melodySkeleton genome num_bars num_notes pauses).notes)
        (List.range num_steps) with
    | error e => rw [hml] at h; exact absurd h (by simp)
    | ok steps =>
      rw [hml] at h
      simp only [Except.ok.injEq] at h
      exact ⟨steps, rfl, h.symm⟩

lemma next_gen_foldl_length (offspring : Nat → List Nat × List Nat) :
    ∀ (js : List Nat) (init : List (List Nat)),
      (js.foldl (fun acc j => acc ++ [(offspring j).1, (offspring j).2]) init).length
        = init.length + 2 * js.length := by
  intro js
  induction js with
  | nil => intro init; simp
  | cons j js ih =>
    intro init
    rw [List.foldl_cons, ih]
    simp [List.length_append]
    omega

set_option maxRecDepth 100000 in
/-- In the double model the tie-merged decode of three NoteCodes of
value 3 (notesPerBar = 3) still has total duration exactly 4:
`fl(4/3) + fl(4/3) + fl(4/3)` rounds to exactly `4.0` in IEEE-754
double arithmetic, so on such dyadic-total inputs the exact-rational
evaluation states the same fact as the program's doubles. -/
lemma melodySkeletonFP_three_thirds :
    (melodySkeletonFP [1,1,0,0, 1,1,0,0, 1,1,0,0] 1 3 false).beat
      = [4 * 2 ^ 1074] := by decide

/-! The claims -/

/-- C9: `int_from_bits` maps any finite bit sequence, least-significant
bit first, to `Σ bit_i · 2^i` with no error (the empty sequence maps to
0), and applying it to the `k`-bit little-endian binary expansion of any
`n < 2^k` returns `n`. -/
theorem claim_C9 :
    int_from_bits [] = 0 ∧
    (∀ bits : List Nat,
      int_from_bits bits = ∑ i in Finset.range bits.length, bits.getD i 0 * 2 ^ i) ∧
    ∀ n k : Nat, n < 2 ^ k → int_from_bits (toBitsLE n k) = n := by
  refine ⟨rfl, fun bits => ?_, fun n k h => ?_⟩
  · rw [int_from_bits_eq_bitsVal, bitsVal_eq_sum]
  · rw [int_from_bits_eq_bitsVal, bitsVal_toBitsLE k n h]

/-- Witness for C9 at `n = 5`, `k = 3`. -/
theorem claim_C9_witness : int_from_bits (toBitsLE 5 3) = 5 :=
  claim_C9.2.2 5 3 (by norm_num)

/-- C4: decoding the genome whose three NoteCodes all decode to 3
(bars = 1, notesPerBar = 3, pauses disabled) yields exactly one Melody
entry whose duration is `3 * noteLength` with `noteLength = 4 / 3` —
not three separate entries. -/
theorem claim_C4 :
    genome_to_melody [1,1,0,0, 1,1,0,0, 1,1,0,0] 1 3 1 false [60,62,64,65,67,69,71]
      = .ok ⟨[[65]], [127], [3 * (4 / (3 : ℚ))]⟩ := by
  have h : genome_to_melody [1,1,0,0, 1,1,0,0, 1,1,0,0] 1 3 1 false [60,62,64,65,67,69,71]
      = .ok ⟨[[65]], [127], [4 / (3 : ℚ) + 4 / 3 + 4 / 3]⟩ := rfl
  rw [h]
  norm_num

/-- C1 counterexample: with `bars = 0` and `notesPerBar = 0`, decoding
the empty genome does NOT return an empty Melody — the code raises
`ZeroDivisionError` at `note_length = 4 / float(num_notes)`. -/
theorem claim_C1_counterexample :
    genome_to_melody [] 0 0 1 false [60] = .error .zeroDivisionError := rfl

/-- C1 amended: with `bars = 0` and any `notesPerBar ≥ 1`, decoding the
empty genome returns an empty Melody (empty velocity and duration
sequences and an empty pitch sequence in every layer) without error;
with `notesPerBar = 0` the decoder instead raises `ZeroDivisionError`. -/
theorem claim_C1_amended (num_notes num_steps : Nat) (pauses : Bool) (scl : List Int)
    (h : 1 ≤ num_notes) :
    genome_to_melody [] 0 num_notes num_steps pauses scl
      = .ok ⟨List.replicate num_steps [], [], []⟩ := by
  unfold genome_to_melody
  rw [if_neg (by omega)]
  have hskel : melodySkeleton [] 0 num_notes pauses = ⟨[], [], []⟩ := by
    simp [melodySkeleton, genomeWindows]
  rw [hskel]
  have h1 : ∀ a ∈ List.range num_steps,
      (fun step => exceptMapList (fun note => sclIndex scl (note + step * 2))
        (MelodyAcc.mk [] [] []).notes) a
        = Except.ok ((fun _ => ([] : List Int)) a) := fun a _ => rfl
  rw [exceptMapList_eq_map h1]
  simp

/-- Witness for C1 amended at `notesPerBar = 1`, one step. -/
theorem claim_C1_amended_witness :
    genome_to_melody [] 0 1 1 false [] = .ok ⟨[[]], [], []⟩ :=
  claim_C1_amended 1 1 false [] (by norm_num)

/-- C3 counterexample: a genome of length 4, decoded with `bars = 1`
and `notesPerBar = 2` (expected length `1 * 2 * 4 = 8`), is silently
decoded — the missing second window is read as the empty bit list
(value 0) and no error of any kind is raised. -/
theorem claim_C3_counterexample :
    ([1,1,0,0] : List Nat).length ≠ 1 * 2 * BITS_PER_NOTE ∧
    genome_to_melody [1,1,0,0] 1 2 1 false [60,62,64]
      = .ok ⟨[[60,60]], [127,127], [2, 2]⟩ := by
  refine ⟨by decide, ?_⟩
  have h : genome_to_melody [1,1,0,0] 1 2 1 false [60,62,64]
      = .ok ⟨[[60,60]], [127,127], [4 / (2 : ℚ), 4 / 2]⟩ := rfl
  rw [h]
  norm_num

/-- C3 amended: the decoder performs no genome-length validation at
all: for EVERY genome (of any length) with `notesPerBar ≥ 1` and a
nonempty scale table, decoding succeeds, silently reading out-of-range
windows as the bits that are available (an empty window decodes to 0).
No `EncodingLengthMismatch` error exists in the code. -/
theorem claim_C3_amended (genome : List Nat) (num_bars num_notes num_steps : Nat)
    (pauses : Bool) (scl : List Int) (hnn : 1 ≤ num_notes) (hscl : scl ≠ []) :
    ∃ m, genome_to_melody genome num_bars num_notes num_steps pauses scl = .ok m := by
  unfold genome_to_melody
  rw [if_neg (by omega)]
  rw [exceptMapList_eq_map
    (fun step _ => exceptMapList_eq_map (fun note _ => sclIndex_ok hscl _))]
  exact ⟨_, rfl⟩

/-- Witness for C3 amended at the mismatched-length input of the
counterexample. -/
theorem claim_C3_amended_witness :
    ∃ m, genome_to_melody [1,1,0,0] 1 2 1 false [60] = .ok m :=
  claim_C3_amended [1,1,0,0] 1 2 1 false [60] (by norm_num) (by simp)

/-- C8 counterexample: one pass of the generation loop over a
population of 3 genomes produces only `2 + 2 * (3 / 2 - 1) = 2`
genomes, not 3. -/
theorem claim_C8_counterexample :
    (next_generation_pass [[0],[1],[2]] (fun _ => ([0],[0]))).length = 2 ∧
    (2 : Nat) ≠ 3 := ⟨rfl, by decide⟩

/-- C8 amended: one pass of the generation loop over a population of
`n ≥ 2` genomes produces `2 + 2 * (⌊n/2⌋ - 1) = 2 * ⌊n/2⌋` genomes;
this equals `n` exactly when `n` is even, and drops one genome when `n`
is odd. -/
theorem claim_C8_amended (population : List (List Nat))
    (offspring : Nat → List Nat × List Nat) (h : 2 ≤ population.length) :
    (next_generation_pass population offspring).length = 2 * (population.length / 2) ∧
    (population.length % 2 = 0 →
      (next_generation_pass population offspring).length = population.length) := by
  unfold next_generation_pass
  rw [next_gen_foldl_length]
  simp only [List.length_take, List.length_range]
  omega

/-- Witness for C8 amended on a population of 4. -/
theorem claim_C8_amended_witness :
    (next_generation_pass [[0],[1],[2],[3]] (fun _ => ([5],[6]))).length
      = 2 * (([[0],[1],[2],[3]] : List (List Nat)).length / 2) :=
  (claim_C8_amended [[0],[1],[2],[3]] (fun _ => ([5],[6])) (by decide)).1

/-- C2 counterexample: with pauses enabled, decoding the two NoteCodes
`[8, 0]` (a rest, then a sounding value 0) merges the sounding 0 into
the rest entry: the result has a single entry with velocity 0 and
duration `2 * noteLength`, not a new velocity-127 entry.  The merge
test compares only the stored pitch value `melody["notes"][-1]`, and a
rest stores the placeholder pitch 0. -/
theorem claim_C2_counterexample :
    genome_to_melody [0,0,0,1, 0,0,0,0] 1 2 1 true [60]
      = .ok ⟨[[60]], [0], [4]⟩ ∧
    (Melody.velocity ⟨[[60]], [0], [4]⟩).length = 1 := by
  refine ⟨?_, rfl⟩
  have h : genome_to_melody [0,0,0,1, 0,0,0,0] 1 2 1 true [60]
      = .ok ⟨[[60]], [0], [4 / (2 : ℚ) + 4 / 2]⟩ := rfl
  rw [h]
  norm_num

/-- C2 amended: a sounding NoteCode is merged into the previous Melody
entry whenever that entry's stored pitch value equals the decoded
value, regardless of whether the previous entry is a sounding note or a
rest (which stores the placeholder pitch 0).  In particular, for any
nonempty scale table, a sounding NoteCode of value 0 immediately after
a rest extends the rest's duration instead of starting a new Melody
entry with velocity 127. -/
theorem claim_C2_amended (scl : List Int) (h : scl ≠ []) :
    genome_to_melody [0,0,0,1, 0,0,0,0] 1 2 1 true scl
      = .ok ⟨[[scl.getD 0 0]], [0], [4]⟩ := by
  unfold genome_to_melody
  rw [if_neg (by omega)]
  have hskel : melodySkeleton [0,0,0,1, 0,0,0,0] 1 2 true
      = ⟨[0], [0], [4 / (2 : ℚ) + 4 / 2]⟩ := rfl
  rw [hskel]
  have h1 : ∀ a ∈ List.range 1,
      (fun step => exceptMapList (fun note => sclIndex scl (note + step * 2))
        (MelodyAcc.mk [0] [0] [4 / (2 : ℚ) + 4 / 2]).notes) a
        = Except.ok ((fun step => [scl.getD ((0 + step * 2) % scl.length) 0]) a) := by
    intro a _
    have h2 : ∀ note ∈ ([0] : List Nat),
        sclIndex scl (note + a * 2)
          = Except.ok ((fun note => scl.getD ((note + a * 2) % scl.length) 0) note) :=
      fun note _ => sclIndex_ok h _
    exact exceptMapList_eq_map h2
  rw [exceptMapList_eq_map h1]
  have hr : List.range 1 = [0] := rfl
  rw [hr]
  simp only [List.map_cons, List.map_nil]
  have hmod : (0 + 0 * 2) % scl.length = 0 := by simp
  have hq : (4 / (2 : ℚ) + 4 / 2) = 4 := by norm_num
  rw [hmod, hq]

/-- Witness for C2 amended with the one-note scale table `[62]`. -/
theorem claim_C2_amended_witness :
    genome_to_melody [0,0,0,1, 0,0,0,0] 1 2 1 true [62]
      = .ok ⟨[[62]], [0], [4]⟩ :=
  claim_C2_amended [62] (by simp)

/-- C5: with pauses disabled every decoded NoteCode value after masking
is strictly below `2^(BITS_PER_NOTE-1) = 8`, so the rest-emitting
branch is unreachable and every entry of any Melody the decoder returns
has velocity 127. -/
theorem claim_C5 (genome : List Nat) (num_bars num_notes num_steps : Nat)
    (scl : List Int) (m : Melody)
    (hm : genome_to_melody genome num_bars num_notes num_steps false scl = .ok m) :
    (∀ w : List Nat, noteValue false w < 2 ^ (BITS_PER_NOTE - 1)) ∧
    ∀ v ∈ m.velocity, v = 127 := by
  refine ⟨noteValue_noPauses_lt, ?_⟩
  obtain ⟨hnn, steps, hsteps, hmval⟩ := genome_to_melody_ok hm
  intro v hv
  rw [hmval] at hv
  have hv2 : v ∈ ((genomeWindows genome num_bars num_notes).foldl
      (stepNote false (4 / (num_notes : ℚ))) ⟨[], [], []⟩).velocity := by
    simpa [melodySkeleton] using hv
  rcases foldl_velocity_noPauses (4 / (num_notes : ℚ))
      (genomeWindows genome num_bars num_notes) ⟨[], [], []⟩ v hv2 with h | h
  · simp at h
  · exact h

/-- Witness for C5 on a one-note genome. -/
theorem claim_C5_witness : (127 : Nat) = 127 :=
  (claim_C5 [1,1,0,0] 1 1 1 [60] ⟨[[60]], [127], [4 / (1 : ℚ)]⟩ rfl).2 127 (by simp)

/-- C6: whenever the decoder returns a Melody (and `steps ≥ 1`), the
velocity, duration and every pitch layer have the same length, there
are exactly `steps` layers, and the `MelodyShapeMismatch` check of the
MIDI-saving path cannot fire on it. -/
theorem claim_C6 (genome : List Nat) (num_bars num_notes num_steps : Nat)
    (pauses : Bool) (scl : List Int) (m : Melody)
    (hm : genome_to_melody genome num_bars num_notes num_steps pauses scl = .ok m)
    (hs : 1 ≤ num_steps) :
    m.notes.length = num_steps ∧
    (∀ layer ∈ m.notes, layer.length = m.velocity.length) ∧
    m.velocity.length = m.beat.length ∧
    melodyShapeMismatch m = false := by
  obtain ⟨hnn, steps, hsteps, hmval⟩ := genome_to_melody_ok hm
  obtain ⟨i1, i2, i3⟩ := melodySkeleton_invariant genome num_bars num_notes pauses
  subst hmval
  have hlen : steps.length = num_steps := by
    simpa using exceptMapList_ok_length hsteps
  have hlayer : ∀ layer ∈ steps,
      layer.length = (melodySkeleton genome num_bars num_notes pauses).velocity.length := by
    intro layer hl
    obtain ⟨step, _, hstep⟩ := exceptMapList_ok_mem hsteps layer hl
    rw [exceptMapList_ok_length hstep, i1]
  refine ⟨hlen, hlayer, i2, ?_⟩
  have hne : steps ≠ [] := by
    intro he
    rw [he] at hlen
    simp at hlen
    omega
  obtain ⟨l0, rest, rfl⟩ := List.exists_cons_of_ne_nil hne
  have h0 := hlayer l0 (by simp)
  simp [melodyShapeMismatch, List.headI, h0, i2]

/-- Witness for C6 on a one-note genome. -/
theorem claim_C6_witness :
    melodyShapeMismatch ⟨[[60]], [127], [4 / (1 : ℚ)]⟩ = false :=
  (claim_C6 [1,1,0,0] 1 1 1 false [60] ⟨[[60]], [127], [4 / (1 : ℚ)]⟩ rfl
    (by norm_num)).2.2.2

/-- C7: whenever the decoder returns a Melody from a nonempty scale
table, layer `step` is exactly the stored pitch-index timeline mapped
through `scl[(note + step * 2) % len(scl)]`, and all layers share the
single velocity and duration sequences of the decoded skeleton. -/
theorem claim_C7 (genome : List Nat) (num_bars num_notes num_steps : Nat)
    (pauses : Bool) (scl : List Int) (m : Melody)
    (hm : genome_to_melody genome num_bars num_notes num_steps pauses scl = .ok m)
    (hscl : scl ≠ []) :
    (∀ step, step < num_steps →
      m.notes.get? step = some
        ((melodySkeleton genome num_bars num_notes pauses).notes.map
          (fun note => scl.getD ((note + step * 2) % scl.length) 0))) ∧
    m.velocity = (melodySkeleton genome num_bars num_notes pauses).velocity ∧
    m.beat = (melodySkeleton genome num_bars num_notes pauses).beat := by
  obtain ⟨hnn, steps, hsteps, hmval⟩ := genome_to_melody_ok hm
  have houter :
      exceptMapList
        (fun step => exceptMapList (fun note => sclIndex scl (note + step * 2))
          (melodySkeleton genome num_bars num_notes pauses).notes)
        (List.range num_steps)
      = .ok ((List.range num_steps).map
          (fun step => (melodySkeleton genome num_bars num_notes pauses).notes.map
            (fun note => scl.getD ((note + step * 2) % scl.length) 0))) :=
    exceptMapList_eq_map (fun step _ => exceptMapList_eq_map (fun note _ => sclIndex_ok hscl _))
  rw [houter] at hsteps
  simp only [Except.ok.injEq] at hsteps
  subst hsteps
  subst hmval
  refine ⟨?_, rfl, rfl⟩
  intro step hstep
  rw [List.get?_map, List.get?_range hstep]
  rfl

/-- Witness for C7 on a one-note genome. -/
theorem claim_C7_witness :
    (Melody.mk [[60]] [127] [4 / (1 : ℚ)]).velocity
      = (melodySkeleton [1,1,0,0] 1 1 false).velocity :=
  (claim_C7 [1,1,0,0] 1 1 1 false [60] ⟨[[60]], [127], [4 / (1 : ℚ)]⟩ rfl
    (by simp)).2.1

set_option maxRecDepth 100000 in
/-- C10 counterexample: the durations the program stores are IEEE-754
doubles, and their exact sum is NOT always `4 * bars`: decoding one bar
of seven distinct sounding NoteCodes (values 0..6, notesPerBar = 7,
pauses disabled) stores seven copies of the double nearest `4/7`, whose
exact sum is `4 - 2⁻⁵²` (3.999999999999999…), not 4.  Stated at the
scale `2 ^ 1074` of the double model, where the value 4 is
`4 * 2 ^ 1074` and one ulp of the result is `2 ^ 1022`. -/
theorem claim_C10_counterexample :
    (melodySkeletonFP [0,0,0,0, 1,0,0,0, 0,1,0,0, 1,1,0,0, 0,0,1,0, 1,0,1,0, 0,1,1,0]
        1 7 false).beat.sum = 4 * 2 ^ 1074 - 2 ^ 1022 ∧
    (melodySkeletonFP [0,0,0,0, 1,0,0,0, 0,1,0,0, 1,1,0,0, 0,0,1,0, 1,0,1,0, 0,1,1,0]
        1 7 false).beat.sum ≠ 4 * 2 ^ 1074 :=
  ⟨by decide, by decide⟩

/-- C10 amended: in exact rational arithmetic the durations of any
Melody the decoder returns sum to exactly `4 * bars`, for every genome
of any length and every `notesPerBar ≥ 1` — each of the
`bars * notesPerBar` NoteCode windows contributes `4 / notesPerBar`
beats, and tie-merging redistributes but never changes the total.  The
program, however, stores IEEE-754 doubles, and the exact sum of the
stored beat values can fall short of `4 * bars` whenever `4/notesPerBar`
is not exactly representable: for notesPerBar = 7 the seven stored
beats sum to `4 - 2⁻⁵²`, not 4 (the counterexample above).  This
theorem proves the exact-arithmetic half of the amended claim, over the
rational-valued model. -/
theorem claim_C10 (genome : List Nat) (num_bars num_notes num_steps : Nat)
    (pauses : Bool) (scl : List Int) (m : Melody)
    (hnn : 1 ≤ num_notes)
    (hm : genome_to_melody genome num_bars num_notes num_steps pauses scl = .ok m) :
    m.beat.sum = 4 * num_bars := by
  obtain ⟨_, steps, hsteps, hmval⟩ := genome_to_melody_ok hm
  obtain ⟨_, _, hsum⟩ := melodySkeleton_invariant genome num_bars num_notes pauses
  subst hmval
  rw [hsum]
  have hcast : (num_notes : ℚ) ≠ 0 := Nat.cast_ne_zero.mpr (by omega)
  field_simp
  ring

/-- Witness for C10 on a length-4 genome decoded as one bar of two
notes. -/
theorem claim_C10_witness :
    (Melody.mk [[60,60]] [127,127] [4 / (2 : ℚ), 4 / 2]).beat.sum
      = 4 * ((1 : Nat) : ℚ) :=
  claim_C10 [1,1,0,0] 1 2 1 false [60] ⟨[[60,60]], [127,127], [4 / (2 : ℚ), 4 / 2]⟩
    (by norm_num) rfl

end SoundForge
